import Mathlib

/-!
Shallow embedding of the retrieval core of `src/app.py`
(`split_sentences`, `get_words`, `eval_query`, and the search loop),
with theorems checking the specification's claims about it.

Python strings are modelled as Lean `String`s; character-level string
operations of the source (`str.upper`, `str.lower`, `str.split`,
`str.strip`, `re.sub("[ \t]+", " ", ...)`, `re.split` on the sentence
delimiters, `str.replace`) are modelled as recursions over `String.data`.
-/

namespace App

/-- The whitespace class used by Python's `str.split()` / `str.strip()`
(ASCII part): space, tab, newline, carriage return, vertical tab, form feed. -/
def pySpace (c : Char) : Bool :=
  c = ' ' || c = '\t' || c = '\n' || c = '\r' || c = '\x0b' || c = '\x0c'

/-- Python's `str.lower()` (ASCII-relevant part), character-wise. -/
def lower (s : String) : String :=
  String.mk (s.data.map Char.toLower)

/-- Splitter for Python's `str.split()` with no argument: maximal runs of
non-whitespace characters, no empty tokens.  `cur` is the (reversed)
current token being accumulated. -/
def splitWsAux : List Char → List Char → List (List Char)
  | [], cur => if cur = [] then [] else [cur.reverse]
  | c :: rest, cur =>
    if pySpace c then
      if cur = [] then splitWsAux rest []
      else cur.reverse :: splitWsAux rest []
    else splitWsAux rest (c :: cur)

/-- Python's `s.split()` (no argument). -/
def pySplit (s : String) : List String :=
  (splitWsAux s.data []).map (fun cs => String.mk cs)

/-- `get_words` from `src/app.py`: split the sentence on whitespace; for a
token containing `/` keep only the part before the first `/` (the word,
dropping the part-of-speech tag), otherwise keep the token verbatim. -/
def get_words (sentence : String) : List String :=
  (pySplit sentence).map (fun t =>
    if t.data.contains '/' then String.mk (t.data.takeWhile (fun c => c ≠ '/'))
    else t)

/-- The token expansion performed by
`query.replace("(", " ( ").replace(")", " ) ")` in `eval_query`. -/
def expandParens (cs : List Char) : List Char :=
  cs.flatMap (fun c =>
    if c = '(' then [' ', '(', ' ']
    else if c = ')' then [' ', ')', ' ']
    else [c])

/-- Tokenization of `eval_query` applied to the already-uppercased
character data: expand parentheses with surrounding spaces, split on
whitespace, drop empty tokens (`[t for t in q.split() if t]`). -/
def tokenizeData (us : List Char) : List String :=
  ((splitWsAux (expandParens us) []).map (fun cs => String.mk cs)).filter
    (fun t => t ≠ "")

/-- Tokenization of `eval_query`: uppercase the query
(`query.upper()`, character-wise ASCII), then `tokenizeData`. -/
def tokenize (query : String) : List String :=
  tokenizeData (query.data.map Char.toUpper)

/-- An entry of the mixed evaluation stack of `eval_query`: either a
boolean operand or an operator-marker string (`"AND"` / `"OR"`). -/
inductive Item where
  | b : Bool → Item
  | op : String → Item
deriving DecidableEq, Repr

/-- The token-scanning loop of `eval_query` building the mixed stack.
`tm` is `term_match`; the Python stack grows at the list's end
(`stack[-1]` is the last element). -/
def pushTokens (tm : String → Bool) : List String → List Item → List Item
  | [], st => st
  | t :: ts, st =>
    if t = "NOT" then
      match st.getLast? with
      | some (Item.b v) => pushTokens tm ts (st.dropLast ++ [Item.b (!v)])
      | some (Item.op _) => pushTokens tm ts (st ++ [Item.b true])
      | none => pushTokens tm ts (st ++ [Item.b true])
    else if t = "AND" then pushTokens tm ts (st ++ [Item.op "AND"])
    else if t = "OR" then pushTokens tm ts (st ++ [Item.op "OR"])
    else if t = "(" ∨ t = ")" then pushTokens tm ts st
    else pushTokens tm ts (st ++ [Item.b (tm t)])

/-- The final left-to-right reduction loop of `eval_query`: `result`
starts as `None`, `op` remembers the most recently seen operator marker
(and is never cleared), booleans fold into `result`. -/
def reduceStack : List Item → Option Bool → Option String → Option Bool
  | [], result, _ => result
  | Item.b v :: rest, result, opn =>
    match result with
    | none => reduceStack rest (some v) opn
    | some r =>
      if opn = some "AND" then reduceStack rest (some (r && v)) opn
      else if opn = some "OR" then reduceStack rest (some (r || v)) opn
      else reduceStack rest (some r) opn
  | Item.op o :: rest, result, _ => reduceStack rest result (some o)

/-- `term_match` from `eval_query`: the lowercased term is looked up in
the list of lowercased sentence words. -/
def term_match (lw : List String) (term : String) : Bool :=
  lw.contains (lower term)

/-- `eval_query` from `src/app.py`. -/
def eval_query (query : String) (words : List String) : Bool :=
  let lw := words.map lower
  (reduceStack (pushTokens (term_match lw) (tokenize query) []) none none).getD false

/-- Python's `str.strip()` (ASCII whitespace): drop leading and trailing
whitespace characters. -/
def stripChars (cs : List Char) : List Char :=
  ((cs.dropWhile pySpace).reverse.dropWhile pySpace).reverse

/-- `re.sub(r"[ \t]+", " ", ...)`: collapse each maximal run of spaces and
tabs to a single space.  The flag records whether the previous character
was part of such a run. -/
def collapseSpacesAux : List Char → Bool → List Char
  | [], _ => []
  | c :: rest, prevRun =>
    if c = ' ' || c = '\t' then
      if prevRun then collapseSpacesAux rest true
      else ' ' :: collapseSpacesAux rest true
    else c :: collapseSpacesAux rest false

def collapseSpaces (cs : List Char) : List Char :=
  collapseSpacesAux cs false

/-- A sentence-terminal character of the splitting regex
`[。！？!?；;]\s*|\n+` in `split_sentences`. -/
def isTerminal (c : Char) : Bool :=
  c = '。' || c = '！' || c = '？' || c = '!' || c = '?' || c = '；' || c = ';'

/-- Consumption state while replaying the splitting regex: after a
terminal character the greedy `\s*` swallows whitespace; after a newline
the greedy `\n+` swallows further newlines. -/
inductive SkipKind where
  | noSkip
  | skipWs
  | skipNl
deriving DecidableEq, Repr

/-- `re.split(r"[。！？!?；;]\s*|\n+", text)`: fragments between
non-overlapping leftmost matches, empty fragments included.  `cur` is the
(reversed) current fragment. -/
def splitDelimAux : SkipKind → List Char → List Char → List (List Char)
  | _, [], cur => [cur.reverse]
  | mode, c :: rest, cur =>
    if mode = SkipKind.skipWs ∧ pySpace c then splitDelimAux SkipKind.skipWs rest cur
    else if mode = SkipKind.skipNl ∧ c = '\n' then splitDelimAux SkipKind.skipNl rest cur
    else if isTerminal c then cur.reverse :: splitDelimAux SkipKind.skipWs rest []
    else if c = '\n' then cur.reverse :: splitDelimAux SkipKind.skipNl rest []
    else splitDelimAux SkipKind.noSkip rest (c :: cur)

/-- `split_sentences` from `src/app.py`: strip, collapse space/tab runs,
split on the sentence delimiters, strip each fragment and drop the
empty ones. -/
def split_sentences (text : String) : List String :=
  let t := collapseSpaces (stripChars text.data)
  (((splitDelimAux SkipKind.noSkip t []).map stripChars).filter
    (fun s => s ≠ [])).map (fun cs => String.mk cs)

/-- A row appended by the search loop of `src/app.py`
(`{"文件": fname, "句号": idx, "句子（含词性）": s}`). -/
structure MatchRecord where
  source : String
  ordinal : Nat
  text : String
deriving DecidableEq, Repr

/-- `match_counts[fname] += 1` on a `defaultdict(int)`: bump the entry
for `name`, creating it at 1 when absent; insertion order is kept. -/
def bump : List (String × Nat) → String → List (String × Nat)
  | [], name => [(name, 1)]
  | (k, v) :: rest, name =>
    if k = name then (k, v + 1) :: rest else (k, v) :: bump rest name

/-- `match_counts.get(name, 0)`: a read on the `defaultdict(int)` tally. -/
def getCount : List (String × Nat) → String → Nat
  | [], _ => 0
  | (k, v) :: rest, name => if k = name then v else getCount rest name

/-- The inner loop of the search: `for idx, s in enumerate(sents, start=1)`,
appending a row and bumping the tally on each matching sentence. -/
def scanSentences (query fname : String) :
    List String → Nat → List MatchRecord × List (String × Nat) →
    List MatchRecord × List (String × Nat)
  | [], _, acc => acc
  | s :: rest, idx, (rows, counts) =>
    if eval_query query (get_words s) then
      scanSentences query fname rest (idx + 1)
        (rows ++ [⟨fname, idx, s⟩], bump counts fname)
    else
      scanSentences query fname rest (idx + 1) (rows, counts)

/-- The outer loop of the search: `for fname, sents in sentences_map.items()`
(a Python dict iterates in insertion order, so the mapping is an
association list). -/
def searchAux (query : String) :
    List (String × List String) → List MatchRecord × List (String × Nat) →
    List MatchRecord × List (String × Nat)
  | [], acc => acc
  | (fname, sents) :: rest, acc =>
    searchAux query rest (scanSentences query fname sents 1 acc)

/-- The retrieval engine of `src/app.py` (lines 127-135): the match rows
and the per-source tally. -/
def search (query : String) (sentencesBySource : List (String × List String)) :
    List MatchRecord × List (String × Nat) :=
  searchAux query sentencesBySource ([], [])

/-- The character substitution of the C8 claim: each parenthesis
character of the query becomes a space. -/
def pts (c : Char) : Char :=
  if c = '(' || c = ')' then ' ' else c

/-- The query with every `(` and `)` replaced by a space. -/
def replaceParens (q : String) : String :=
  String.mk (q.data.map pts)

/-- A whitespace-token (as character list) that is not a lone
parenthesis. -/
def noParenTok (t : List Char) : Bool :=
  decide (t ≠ ['('] ∧ t ≠ [')'])

/-- A token that is not a lone parenthesis. -/
def noParenStr (t : String) : Bool :=
  decide (t ≠ "(" ∧ t ≠ ")")

/-! ## Helper lemmas -/

theorem toNat_ofNat_valid {m : Nat} (h : m < 55296) :
    (Char.ofNat m).toNat = m := by
  unfold Char.ofNat
  rw [dif_pos (Or.inl h)]
  rfl

theorem toUpper_not_paren {c : Char} (h1 : c ≠ '(') (h2 : c ≠ ')') :
    Char.toUpper c ≠ '(' ∧ Char.toUpper c ≠ ')' := by
  unfold Char.toUpper
  by_cases hc : c.toNat ≥ 97 ∧ c.toNat ≤ 122
  · rw [if_pos hc]
    have hv : c.toNat - 32 < 55296 := by omega
    have h40 : ('(' : Char).toNat = 40 := rfl
    have h41 : (')' : Char).toNat = 41 := rfl
    constructor <;> intro he <;> (
      have hn := congrArg Char.toNat he
      rw [toNat_ofNat_valid hv] at hn) <;> omega
  · rw [if_neg hc]
    exact ⟨h1, h2⟩

theorem bump_sum (counts : List (String × Nat)) (name : String) :
    ((bump counts name).map Prod.snd).sum = (counts.map Prod.snd).sum + 1 := by
  induction counts with
  | nil => rfl
  | cons p rest ih =>
    obtain ⟨k, v⟩ := p
    by_cases h : k = name
    · simp only [bump, if_pos h, List.map_cons, List.sum_cons]
      omega
    · simp only [bump, if_neg h, List.map_cons, List.sum_cons, ih]
      omega

theorem scanSentences_sum (query fname : String) (sents : List String) :
    ∀ (idx : Nat) (rows : List MatchRecord) (counts : List (String × Nat)),
      ((scanSentences query fname sents idx (rows, counts)).2.map Prod.snd).sum
          + rows.length
        = (scanSentences query fname sents idx (rows, counts)).1.length
          + (counts.map Prod.snd).sum := by
  induction sents with
  | nil => intro idx rows counts; simp only [scanSentences]; omega
  | cons s rest ih =>
    intro idx rows counts
    by_cases h : eval_query query (get_words s)
    · simp only [scanSentences, if_pos h]
      have hrec := ih (idx + 1) (rows ++ [⟨fname, idx, s⟩]) (bump counts fname)
      rw [bump_sum, List.length_append] at hrec
      simp only [List.length_cons, List.length_nil] at hrec
      omega
    · simp only [scanSentences, if_neg h]
      exact ih (idx + 1) rows counts

theorem searchAux_sum (query : String) (m : List (String × List String)) :
    ∀ (rows : List MatchRecord) (counts : List (String × Nat)),
      ((searchAux query m (rows, counts)).2.map Prod.snd).sum + rows.length
        = (searchAux query m (rows, counts)).1.length
          + (counts.map Prod.snd).sum := by
  induction m with
  | nil => intro rows counts; simp only [searchAux]; omega
  | cons p rest ih =>
    intro rows counts
    obtain ⟨fname, sents⟩ := p
    simp only [searchAux]
    have hscan := scanSentences_sum query fname sents 1 rows counts
    rcases hmid : scanSentences query fname sents 1 (rows, counts) with ⟨r2, c2⟩
    rw [hmid] at hscan
    dsimp only at hscan
    have := ih r2 c2
    omega

/-- The word the spec assigns to one annotated token: the substring
before the first `/` (for a token without `/`, the whole token; for a
bare `/tag` token, the empty string). -/
def wordBeforeSlash (t : String) : String :=
  String.mk (t.data.takeWhile (fun c => c ≠ '/'))

theorem dropWhile_all {p : α → Bool} :
    ∀ {l : List α}, (∀ c ∈ l, p c) → l.dropWhile p = []
  | [], _ => rfl
  | c :: rest, h => by
    have hc : p c := h c (List.mem_cons_self c rest)
    rw [List.dropWhile_cons_of_pos hc]
    exact dropWhile_all fun d hd => h d (List.mem_cons_of_mem c hd)

theorem takeWhile_all {p : α → Bool} :
    ∀ {l : List α}, (∀ c ∈ l, p c) → l.takeWhile p = l
  | [], _ => rfl
  | c :: rest, h => by
    have hc : p c := h c (List.mem_cons_self c rest)
    simp only [List.takeWhile_cons_of_pos hc, List.cons.injEq, true_and]
    exact takeWhile_all fun d hd => h d (List.mem_cons_of_mem c hd)

/-! ## Claim theorems -/

/-- C1 (code bug record): on the word set `{"a"}` the code returns
`false` for the query `"A AND NOT B"`, and on `{"a","b"}` it returns
`true` — the opposite of the specified test vectors.  When `NOT` is seen,
the top of the stack is the `"AND"` marker, not a boolean, so the
fallback pushes `true` and the following term's membership value is
conjoined unnegated: `A AND NOT B` behaves as `A AND true AND B`. -/
theorem eval_query_and_not_code_behavior :
    eval_query "A AND NOT B" ["a"] = false
      ∧ eval_query "A AND NOT B" ["a", "b"] = true :=
  ⟨rfl, rfl⟩

/-- C2: `AND` and `OR` are folded strictly left to right with no
precedence: for every word list, `"A OR B AND C"` evaluates to
`(A OR B) AND C` over the membership tests, and on `{"a"}` the result is
`false` (conventional precedence would give `true`). -/
theorem eval_query_no_precedence :
    (∀ words : List String,
      eval_query "A OR B AND C" words
        = (((words.map lower).contains "a" || (words.map lower).contains "b")
            && (words.map lower).contains "c"))
    ∧ eval_query "A OR B AND C" ["a"] = false :=
  ⟨fun _ => rfl, rfl⟩

/-- C3: two-term conjunction and disjunction are boolean AND/OR over
term membership in the lowercased word list, and the spec's concrete
vectors hold. -/
theorem eval_query_and_or_semantics :
    (∀ words : List String,
      (eval_query "A AND B" words = true
        ↔ ("a" ∈ words.map lower ∧ "b" ∈ words.map lower))
      ∧ (eval_query "A OR B" words = true
        ↔ ("a" ∈ words.map lower ∨ "b" ∈ words.map lower)))
    ∧ eval_query "A AND B" ["a", "b"] = true
    ∧ eval_query "A AND B" ["a"] = false
    ∧ eval_query "A OR B" ["b"] = true := by
  refine ⟨fun words => ⟨?_, ?_⟩, rfl, rfl, rfl⟩
  · show ((words.map lower).contains "a" && (words.map lower).contains "b") = true
        ↔ _
    simp [List.elem_iff]
  · show ((words.map lower).contains "a" || (words.map lower).contains "b") = true
        ↔ _
    simp [List.elem_iff]

/-- C4: for every query and corpus, the sum of the tally values equals
the number of match records. -/
theorem search_tally_sum_eq_matches_length :
    ∀ (q : String) (m : List (String × List String)),
      ((search q m).2.map Prod.snd).sum = (search q m).1.length := by
  intro q m
  have := searchAux_sum q m [] []
  simpa [search] using this

/-- C5: on the corpus `{"X": []}` (every sentence list empty) the search
does not fail: it returns no match records, and every `defaultdict`-style
tally read (`match_counts.get(name, 0)`) is zero. -/
theorem search_empty_corpus :
    ∀ q : String,
      (search q [("X", [])]).1 = []
        ∧ ∀ name : String, getCount (search q [("X", [])]).2 name = 0 :=
  fun _ => ⟨rfl, fun _ => rfl⟩

/-- C10: a query word whose uppercasing is `AND`, `OR` or `NOT` is always
consumed as an operator, never matched as a literal term: for every word
list (even one containing the word itself), `"and"`-like queries give
`false` and `"not"`-like queries give `true` (the stray-`NOT` fallback),
with no membership test ever performed. -/
theorem eval_query_operator_words_not_literals :
    ∀ (q : String) (words : List String),
      (q.data.map Char.toUpper = ("AND" : String).data →
        eval_query q words = false)
      ∧ (q.data.map Char.toUpper = ("OR" : String).data →
        eval_query q words = false)
      ∧ (q.data.map Char.toUpper = ("NOT" : String).data →
        eval_query q words = true) := by
  intro q words
  refine ⟨fun h => ?_, fun h => ?_, fun h => ?_⟩ <;>
    · simp only [eval_query, tokenize, h]
      rfl

/-- Witness for C10 at the concrete queries `"and"`, `"oR"`, `"Not"`
against word lists containing those very words. -/
theorem eval_query_operator_words_not_literals_witness :
    eval_query "and" ["and"] = false
      ∧ eval_query "oR" ["or"] = false
      ∧ eval_query "Not" ["not"] = true :=
  ⟨(eval_query_operator_words_not_literals "and" ["and"]).1 (by decide),
   (eval_query_operator_words_not_literals "oR" ["or"]).2.1 (by decide),
   (eval_query_operator_words_not_literals "Not" ["not"]).2.2 (by decide)⟩

/-- C7: `get_words` returns exactly one word per whitespace-separated
token, in original order, each word being the token's prefix before its
first `/` (the whole token when it has no `/`); a bare `/tag` token
yields an empty-string word that is preserved, and the spec's example
sentence extracts as stated. -/
theorem get_words_one_word_per_token :
    (∀ S : String, get_words S = (pySplit S).map wordBeforeSlash)
      ∧ get_words "/n 猫/n x" = ["", "猫", "x"]
      ∧ get_words "猫/n 爱/v 鱼/n" = ["猫", "爱", "鱼"] := by
  refine ⟨fun S => ?_, by decide, by decide⟩
  unfold get_words pySplit wordBeforeSlash
  rw [List.map_map, List.map_map]
  apply List.map_congr_left
  intro cs _
  by_cases h : (String.mk cs).data.contains '/'
  · simp only [Function.comp, if_pos h]
  · simp only [Function.comp, if_neg h]
    have hall : ∀ c ∈ (String.mk cs).data, (fun c => decide (c ≠ '/')) c := by
      intro c hc
      have : ¬ c ∈ (String.mk cs).data ∨ ¬ c = '/' := by
        by_cases hcq : c = '/'
        · subst hcq
          exact Or.inl (fun hm => h (List.elem_iff.mpr hm))
        · exact Or.inr hcq
      rcases this with hnc | hne
      · exact absurd hc hnc
      · simpa using hne
    rw [takeWhile_all hall]

theorem expand_cons_lparen (l : List Char) :
    expandParens ('(' :: l) = ' ' :: '(' :: ' ' :: expandParens l := rfl

theorem expand_cons_rparen (l : List Char) :
    expandParens (')' :: l) = ' ' :: ')' :: ' ' :: expandParens l := rfl

theorem expand_cons_other {u : Char} (h1 : u ≠ '(') (h2 : u ≠ ')')
    (l : List Char) :
    expandParens (u :: l) = u :: expandParens l := by
  simp [expandParens, h1, h2]

theorem splitWs_cons_ws {c : Char} (hws : pySpace c = true)
    (rest cur : List Char) :
    splitWsAux (c :: rest) cur
      = if cur = [] then splitWsAux rest []
        else cur.reverse :: splitWsAux rest [] := by
  simp [splitWsAux, hws]

theorem splitWs_cons_nonws {c : Char} (hws : pySpace c = false)
    (rest cur : List Char) :
    splitWsAux (c :: rest) cur = splitWsAux rest (c :: cur) := by
  simp [splitWsAux, hws]

theorem splitWs_space (rest cur : List Char) :
    splitWsAux (' ' :: rest) cur
      = if cur = [] then splitWsAux rest []
        else cur.reverse :: splitWsAux rest [] :=
  splitWs_cons_ws (by decide) rest cur

theorem splitWs_space_paren {p : Char} (hpws : pySpace p = false)
    (E cur : List Char) :
    splitWsAux (' ' :: p :: ' ' :: E) cur
      = if cur = [] then [p] :: splitWsAux E []
        else cur.reverse :: [p] :: splitWsAux E [] := by
  have hblock : splitWsAux (p :: ' ' :: E) [] = [p] :: splitWsAux E [] := by
    rw [splitWs_cons_nonws hpws, splitWs_space, if_neg (by simp)]
    rfl
  rw [splitWs_space, hblock]

theorem noParenTok_reverse {cur : List Char}
    (h : ∀ c ∈ cur, c ≠ '(' ∧ c ≠ ')') (hcur : cur ≠ []) :
    noParenTok cur.reverse = true := by
  simp only [noParenTok, decide_eq_true_eq]
  constructor <;> intro he <;>
    · rw [List.reverse_eq_iff] at he
      subst he
      simp at h

theorem splitWs_expand_pts :
    ∀ (cs : List Char) (cur : List Char),
      (∀ c ∈ cur, c ≠ '(' ∧ c ≠ ')') →
      splitWsAux (expandParens (cs.map (fun c => Char.toUpper (pts c)))) cur
        = (splitWsAux (expandParens (cs.map Char.toUpper)) cur).filter noParenTok := by
  intro cs
  induction cs with
  | nil =>
    intro cur h
    by_cases hcur : cur = []
    · subst hcur; rfl
    · simp only [List.map_nil, expandParens, List.flatMap_nil, splitWsAux,
        if_neg hcur, List.filter_cons, List.filter_nil]
      rw [noParenTok_reverse h hcur]
      simp
  | cons c cs ih =>
    intro cur h
    by_cases hc1 : c = '('
    · subst hc1
      have e1 : Char.toUpper (pts '(') = ' ' := rfl
      have e2 : Char.toUpper '(' = '(' := rfl
      simp only [List.map_cons, e1, e2, expand_cons_lparen]
      rw [expand_cons_other (by decide) (by decide)]
      rw [splitWs_space, splitWs_space_paren (by decide)]
      by_cases hcur : cur = []
      · simp only [if_pos hcur, List.filter_cons]
        have hpf : noParenTok ['('] = false := rfl
        rw [hpf]
        simp only [Bool.false_eq_true, if_false]
        exact ih [] (by simp)
      · simp only [if_neg hcur, List.filter_cons]
        rw [noParenTok_reverse h hcur]
        have hpf : noParenTok ['('] = false := rfl
        rw [hpf]
        simp only [if_true, Bool.false_eq_true, if_false]
        rw [ih [] (by simp)]
    · by_cases hc2 : c = ')'
      · subst hc2
        have e1 : Char.toUpper (pts ')') = ' ' := rfl
        have e2 : Char.toUpper ')' = ')' := rfl
        simp only [List.map_cons, e1, e2, expand_cons_rparen]
        rw [expand_cons_other (by decide) (by decide)]
        rw [splitWs_space, splitWs_space_paren (by decide)]
        by_cases hcur : cur = []
        · simp only [if_pos hcur, List.filter_cons]
          have hpf : noParenTok [')'] = false := rfl
          rw [hpf]
          simp only [Bool.false_eq_true, if_false]
          exact ih [] (by simp)
        · simp only [if_neg hcur, List.filter_cons]
          rw [noParenTok_reverse h hcur]
          have hpf : noParenTok [')'] = false := rfl
          rw [hpf]
          simp only [if_true, Bool.false_eq_true, if_false]
          rw [ih [] (by simp)]
      · have hpts : pts c = c := by simp [pts, hc1, hc2]
        obtain hu := toUpper_not_paren hc1 hc2
        simp only [List.map_cons, hpts]
        rw [expand_cons_other hu.1 hu.2, expand_cons_other hu.1 hu.2]
        by_cases hws : pySpace (Char.toUpper c) = true
        · rw [splitWs_cons_ws hws, splitWs_cons_ws hws]
          by_cases hcur : cur = []
          · simp only [if_pos hcur]
            exact ih [] (by simp)
          · simp only [if_neg hcur, List.filter_cons]
            rw [noParenTok_reverse h hcur]
            simp only [if_true]
            rw [ih [] (by simp)]
        · have hws2 : pySpace (Char.toUpper c) = false := by
            simpa using hws
          rw [splitWs_cons_nonws hws2, splitWs_cons_nonws hws2]
          apply ih
          intro d hd
          rcases List.mem_cons.mp hd with hd1 | hd2
          · subst hd1; exact hu
          · exact h d hd2

theorem noParenStr_mk (t : List Char) :
    noParenStr (String.mk t) = noParenTok t := by
  simp only [noParenStr, noParenTok]
  rw [decide_eq_decide]
  constructor
  · rintro ⟨hs1, hs2⟩
    exact ⟨fun he => hs1 (by rw [he]), fun he => hs2 (by rw [he])⟩
  · rintro ⟨ht1, ht2⟩
    exact ⟨fun he => ht1 (congrArg String.data he),
      fun he => ht2 (congrArg String.data he)⟩

theorem filter_map_mk (p : String → Bool) (pl : List Char → Bool)
    (hp : ∀ t : List Char, p (String.mk t) = pl t) (L : List (List Char)) :
    (L.filter pl).map (fun cs => String.mk cs)
      = (L.map (fun cs => String.mk cs)).filter p := by
  have hpe : (p ∘ fun cs => String.mk cs) = pl := by
    funext t
    exact hp t
  rw [List.filter_map, hpe]

theorem tokenize_replaceParens (q : String) :
    tokenize (replaceParens q) = (tokenize q).filter noParenStr := by
  unfold tokenize replaceParens tokenizeData
  simp only [List.map_map]
  have hsplit := splitWs_expand_pts q.data [] (by simp)
  rw [show (Char.toUpper ∘ pts) = (fun c => Char.toUpper (pts c)) from rfl, hsplit]
  rw [filter_map_mk noParenStr noParenTok noParenStr_mk]
  rw [List.filter_filter, List.filter_filter]
  congr 1
  funext t
  exact Bool.and_comm _ _

theorem pushTokens_filter (tm : String → Bool) :
    ∀ (ts : List String) (st : List Item),
      pushTokens tm (ts.filter noParenStr) st = pushTokens tm ts st := by
  intro ts
  induction ts with
  | nil => intro st; rfl
  | cons t ts ih =>
    intro st
    by_cases hp : noParenStr t = true
    · rw [List.filter_cons_of_pos hp]
      by_cases h1 : t = "NOT"
      · simp only [pushTokens, if_pos h1]
        cases hlast : st.getLast? with
        | none => exact ih _
        | some it => cases it with
          | b v => exact ih _
          | op o => exact ih _
      · by_cases h2 : t = "AND"
        · simp only [pushTokens, if_neg h1, if_pos h2]
          exact ih _
        · by_cases h3 : t = "OR"
          · simp only [pushTokens, if_neg h1, if_neg h2, if_pos h3]
            exact ih _
          · have h4 : ¬ (t = "(" ∨ t = ")") := by
              simp only [noParenStr, decide_eq_true_eq] at hp
              rintro (rfl | rfl)
              · exact hp.1 rfl
              · exact hp.2 rfl
            simp only [pushTokens, if_neg h1, if_neg h2, if_neg h3, if_neg h4]
            exact ih _
    · have hp2 : t = "(" ∨ t = ")" := by
        simp only [noParenStr, decide_eq_true_eq] at hp
        by_cases he1 : t = "("
        · exact Or.inl he1
        · right
          by_contra he2
          exact hp ⟨he1, he2⟩
      rw [List.filter_cons_of_neg (by simp [hp])]
      have h1 : t ≠ "NOT" := by rcases hp2 with rfl | rfl <;> decide
      have h2 : t ≠ "AND" := by rcases hp2 with rfl | rfl <;> decide
      have h3 : t ≠ "OR" := by rcases hp2 with rfl | rfl <;> decide
      simp only [pushTokens, if_neg h1, if_neg h2, if_neg h3, if_pos hp2]
      exact ih st

theorem contains_ext {l1 l2 : List String}
    (h12 : ∀ a ∈ l1, a ∈ l2) (h21 : ∀ a ∈ l2, a ∈ l1) (x : String) :
    l1.contains x = l2.contains x := by
  rw [Bool.eq_iff_iff, List.elem_iff, List.elem_iff]
  exact ⟨fun h => h12 x h, fun h => h21 x h⟩

/-- C8: parentheses have no effect on evaluation: replacing every `(`
and `)` character of the query by a space (so they never become
standalone paren tokens) yields the same result of `eval_query` for
every query string and every word list. -/
theorem eval_query_parens_no_effect :
    ∀ (q : String) (words : List String),
      eval_query (replaceParens q) words = eval_query q words := by
  intro q words
  simp only [eval_query]
  rw [tokenize_replaceParens, pushTokens_filter]

/-- C9: the result of `eval_query` depends only on the query up to the
letter case of its characters and on the set of lowercased words
(duplicates and order ignored): when the two queries agree after
uppercasing and the two word lists have equal lowercased-membership,
the results coincide. -/
theorem eval_query_case_insensitive :
    ∀ (q1 q2 : String) (w1 w2 : List String),
      q1.data.map Char.toUpper = q2.data.map Char.toUpper →
      (w1.map lower).all (fun w => (w2.map lower).contains w) = true →
      (w2.map lower).all (fun w => (w1.map lower).contains w) = true →
      eval_query q1 w1 = eval_query q2 w2 := by
  intro q1 q2 w1 w2 hq hw1 hw2
  have h12 : ∀ a ∈ w1.map lower, a ∈ w2.map lower := by
    intro a ha
    exact List.elem_iff.mp (List.all_eq_true.mp hw1 a ha)
  have h21 : ∀ a ∈ w2.map lower, a ∈ w1.map lower := by
    intro a ha
    exact List.elem_iff.mp (List.all_eq_true.mp hw2 a ha)
  have htok : tokenize q1 = tokenize q2 := by
    unfold tokenize
    rw [hq]
  have htm : term_match (w1.map lower) = term_match (w2.map lower) := by
    funext t
    exact contains_ext h12 h21 (lower t)
  simp only [eval_query]
  rw [htok, htm]

/-- Witness for C9: `"CaT"` against `["Cat", "X"]` evaluates the same as
`"cat"` against `["x", "CAT", "cAt"]`. -/
theorem eval_query_case_insensitive_witness :
    eval_query "CaT" ["Cat", "X"] = eval_query "cat" ["x", "CAT", "cAt"] :=
  eval_query_case_insensitive "CaT" "cat" ["Cat", "X"] ["x", "CAT", "cAt"]
    (by decide) (by decide) (by decide)

/-- C6: `split_sentences` never returns an empty or whitespace-only
entry (every returned sentence is nonempty and contains a non-whitespace
character), and on empty or whitespace-only input it returns the empty
sequence rather than raising an error. -/
theorem split_sentences_no_blank_entries :
    ∀ T : String,
      (∀ s ∈ split_sentences T,
        s.data ≠ [] ∧ s.data.any (fun c => !(pySpace c)) = true)
      ∧ (T.data.all pySpace = true → split_sentences T = []) := by
  intro T
  constructor
  · intro s hs
    unfold split_sentences at hs
    obtain ⟨cs, hcs, rfl⟩ := List.mem_map.mp hs
    obtain ⟨hmem, hne⟩ := List.mem_filter.mp hcs
    obtain ⟨x, _, rfl⟩ := List.mem_map.mp hmem
    have hne2 : stripChars x ≠ [] := by simpa using hne
    refine ⟨hne2, ?_⟩
    unfold stripChars at hne2 ⊢
    have hy : (x.dropWhile pySpace).reverse.dropWhile pySpace ≠ [] := by
      intro hnil
      exact hne2 (by rw [hnil]; rfl)
    have hhead := List.head_dropWhile_not pySpace
      (x.dropWhile pySpace).reverse hy
    have hmem2 : ((x.dropWhile pySpace).reverse.dropWhile pySpace).head hy
        ∈ ((x.dropWhile pySpace).reverse.dropWhile pySpace).reverse := by
      rw [List.mem_reverse]
      exact List.head_mem hy
    exact List.any_eq_true.mpr ⟨_, hmem2, by simp [hhead]⟩
  · intro h
    unfold split_sentences
    have hstrip : stripChars T.data = [] := by
      unfold stripChars
      rw [dropWhile_all (List.all_eq_true.mp h)]
      rfl
    rw [hstrip]
    rfl

/-- Witness for C6: the sentence `"ab"` returned on input `"ab。 cd"` is
nonempty with a non-whitespace character, and the whitespace-only input
`" \t "` splits to the empty sequence. -/
theorem split_sentences_no_blank_entries_witness :
    (("ab" : String).data ≠ []
      ∧ ("ab" : String).data.any (fun c => !(pySpace c)) = true)
    ∧ split_sentences " \t " = [] :=
  ⟨(split_sentences_no_blank_entries "ab。 cd").1 "ab" (by decide),
   (split_sentences_no_blank_entries " \t ").2 (by decide)⟩

end App
